import Mathlib

/-!
Verification of the SSZ (simple serialize) codec layer and the chain-spec
domain computation of this repository.

The repository ships the codec's test suite
(`src/eth2/utils/ssz/tests/tests.rs`) and the chain-spec record
(`src/eth2/types/src/chain_spec.rs`); the `ssz` implementation crate itself
is not part of the available sources, so the codec below is modelled from
the specification (sections 3, 4, 6 and 7 of `spec.md`), and its behaviour
is checked against every concrete byte fixture of the test suite.
-/

namespace SszModel

/-! ## Bytes: little-endian encoding of unsigned integers -/

/-- Modelled from the spec: missing `ssz` crate primitive codec.  Spec
section 6: all multi-byte integers are little-endian.  `toLE w v` is the
`w`-byte little-endian encoding of `v` (truncating at `256 ^ w`, as Rust's
`to_le_bytes` does for a `w`-byte integer type). -/
def toLE : Nat → Nat → List Nat
  | 0, _ => []
  | w + 1, v => v % 256 :: toLE w (v / 256)

/-- Modelled from the spec: missing `ssz` crate primitive codec.  Reads a
byte list as a little-endian unsigned integer (Rust `from_le_bytes`). -/
def fromLE : List Nat → Nat
  | [] => 0
  | b :: bs => b + 256 * fromLE bs

/-! ## Decode errors

Spec section 7: the decode error taxonomy consists of length mismatches
(carrying actual and expected lengths) and bounds violations (carrying the
offending offset value).  The Rust test suite names these
`DecodeError::InvalidByteLength { len, expected }` and
`DecodeError::OutOfBoundsByte { i }`. -/

/-- Modelled from the spec: missing `ssz` crate `DecodeError` type.
`InvalidByteLength` is the length-mismatch error, `OutOfBoundsByte` the
bounds error.  `BytesInvalid` covers malformed content that is neither
(for example a boolean byte other than 0/1 or an unknown optional-field
selector); no claim depends on its carried data, so it is a bare tag. -/
inductive DecodeError where
  | InvalidByteLength (len : Nat) (expected : Nat) : DecodeError
  | OutOfBoundsByte (i : Nat) : DecodeError
  | BytesInvalid : DecodeError

/-! ## Type descriptors

Spec section 3: a type descriptor is static metadata per type.  The
supported types exercised by the test suite are booleans, unsigned
integers (by byte width), fixed-length byte arrays (covering `[u8; 4]` and
the 32-byte `H256`), lists (`Vec<T>`), optional fields (`Option<T>`) and
containers (derived structs). -/

mutual
/-- Modelled from the spec: missing `ssz` crate type universe (spec
sections 2 and 3).  `uint w` is the unsigned integer of byte width `w`
(`u8` = `uint 1`, `u16` = `uint 2`, ...); `bytes n` the fixed-length byte
array of `n` bytes (`H256` = `bytes 32`). -/
inductive Ty where
  | bool : Ty
  | uint (w : Nat) : Ty
  | bytes (n : Nat) : Ty
  | list (t : Ty) : Ty
  | option (t : Ty) : Ty
  | container (ts : TyList) : Ty
/-- Ordered field types of a container schema (spec section 3: field order
is part of the wire format). -/
inductive TyList where
  | nil : TyList
  | cons (t : Ty) (ts : TyList) : TyList
end

mutual
/-- Modelled from the spec: missing `ssz` crate type classifier (spec
section 4.1).  `some L` means fixed-size with encoded length `L`; `none`
means variable-size.  Primitives are fixed; lists and optionals are always
variable; a container is fixed iff every field is. -/
def fixedLen : Ty → Option Nat
  | .bool => some 1
  | .uint w => some w
  | .bytes n => some n
  | .list _ => none
  | .option _ => none
  | .container ts => fixedLenList ts
/-- Sum of the field lengths of an all-fixed schema, `none` if any field is
variable-size (spec section 4.1). -/
def fixedLenList : TyList → Option Nat
  | .nil => some 0
  | .cons t ts =>
    match fixedLen t, fixedLenList ts with
    | some a, some b => some (a + b)
    | _, _ => none
end

/-- Per-field classification of a container schema, in field order. -/
def clsOf : TyList → List (Option Nat)
  | .nil => []
  | .cons t ts => fixedLen t :: clsOf ts

mutual
/-- Nesting depth of a type descriptor; used only as recursion fuel for
the decoder. -/
def tyDepth : Ty → Nat
  | .bool => 0
  | .uint _ => 0
  | .bytes _ => 0
  | .list t => tyDepth t + 1
  | .option t => tyDepth t + 1
  | .container ts => tyDepthList ts + 1
/-- Maximal nesting depth of a schema's field types. -/
def tyDepthList : TyList → Nat
  | .nil => 0
  | .cons t ts => max (tyDepth t) (tyDepthList ts)
end

mutual
/-- Well-formedness of a type descriptor: integer and byte-array widths are
positive and containers are non-empty, as for every type the repository's
codec supports (`bool`, `u8`...`u64`, `[u8; 4]`, `H256`, and the derived
structs of the test suite, all of which have at least one field). -/
def wfB : Ty → Bool
  | .bool => true
  | .uint w => w != 0
  | .bytes n => n != 0
  | .list t => wfB t
  | .option t => wfB t
  | .container ts =>
    (match ts with
     | .nil => false
     | .cons _ _ => true) && wfListB ts
/-- Well-formedness of every field type of a schema. -/
def wfListB : TyList → Bool
  | .nil => true
  | .cons t ts => wfB t && wfListB ts
end

/-- Schema of a homogeneous sequence: `n` copies of the element type. -/
def tyReplicate : Nat → Ty → TyList
  | 0, _ => .nil
  | n + 1, t => .cons t (tyReplicate n t)

/-! ## Values -/

mutual
/-- Modelled from the spec: missing `ssz` crate value universe (spec
section 3: a value is any instance of a primitive, list, optional or
container type).  `uint w v` carries its byte width; `vnone`/`vsome` are
the two states of an optional field. -/
inductive Val where
  | bool (b : Bool) : Val
  | uint (w : Nat) (v : Nat) : Val
  | bytes (bs : List Nat) : Val
  | list (vs : ValList) : Val
  | vnone : Val
  | vsome (v : Val) : Val
  | container (vs : ValList) : Val
/-- Ordered elements of a list value or field values of a container value. -/
inductive ValList where
  | nil : ValList
  | cons (v : Val) (vs : ValList) : ValList
end

/-- Number of elements of a value list. -/
def valListLength : ValList → Nat
  | .nil => 0
  | .cons _ vs => valListLength vs + 1

mutual
/-- Typing judgment: value `v` conforms to type descriptor `t`.  Unsigned
integers must fit their width; byte arrays must have their declared
length; list elements share the element type; container fields match the
schema pointwise. -/
inductive HasTy : Val → Ty → Prop where
  | bool (b : Bool) : HasTy (.bool b) .bool
  | uint (w v : Nat) : v < 256 ^ w → HasTy (.uint w v) (.uint w)
  | bytes (bs : List Nat) (n : Nat) : bs.length = n → HasTy (.bytes bs) (.bytes n)
  | list (vs : ValList) (t : Ty) : HasTyAll vs t → HasTy (.list vs) (.list t)
  | vnone (t : Ty) : HasTy .vnone (.option t)
  | vsome (v : Val) (t : Ty) : HasTy v t → HasTy (.vsome v) (.option t)
  | container (vs : ValList) (ts : TyList) :
      HasTyZip vs ts → HasTy (.container vs) (.container ts)
/-- Every element of the list conforms to the element type. -/
inductive HasTyAll : ValList → Ty → Prop where
  | nil (t : Ty) : HasTyAll .nil t
  | cons (v : Val) (vs : ValList) (t : Ty) :
      HasTy v t → HasTyAll vs t → HasTyAll (.cons v vs) t
/-- Field values conform to the schema's field types pointwise. -/
inductive HasTyZip : ValList → TyList → Prop where
  | nil : HasTyZip .nil .nil
  | cons (v : Val) (vs : ValList) (t : Ty) (ts : TyList) :
      HasTy v t → HasTyZip vs ts → HasTyZip (.cons v vs) (.cons t ts)
end

/-! ## Encoding

Spec section 4.2.  A container (or list) encoding is assembled from its
parts: each part is a pair of its classification (`true` = variable-size)
and its independently encoded payload.  Fixed parts are written in place;
each variable part contributes a 4-byte little-endian offset word in the
fixed region and its payload in the variable region. -/

/-- Space a part occupies in the fixed region: 4 bytes for a variable
part's offset word, the payload length for a fixed part (spec 4.2 step 1). -/
def partLen (p : Bool × List Nat) : Nat :=
  if p.1 then 4 else p.2.length

/-- Fixed-region length of a part list (spec section 3, invariant 1). -/
def sumPartLens (parts : List (Bool × List Nat)) : Nat :=
  (parts.map partLen).sum

/-- Fixed region: fixed payloads in place, offset words for variable parts
(spec 4.2 steps 2 and 4).  `off` is the running absolute offset of the next
variable payload, starting at the fixed-region length. -/
def fixedRegion : Nat → List (Bool × List Nat) → List Nat
  | _, [] => []
  | off, (true, payload) :: ps => toLE 4 off ++ fixedRegion (off + payload.length) ps
  | off, (false, payload) :: ps => payload ++ fixedRegion off ps

/-- Variable region: concatenated variable payloads in declared order
(spec 4.2 step 3). -/
def varRegion : List (Bool × List Nat) → List Nat
  | [] => []
  | (true, payload) :: ps => payload ++ varRegion ps
  | (false, _) :: ps => varRegion ps

/-- Variable payloads, in order, as a list of chunks. -/
def varPayloads : List (Bool × List Nat) → List (List Nat)
  | [] => []
  | (true, payload) :: ps => payload :: varPayloads ps
  | (false, _) :: ps => varPayloads ps

/-- Whether any part is variable-size. -/
def partsHasVar : List (Bool × List Nat) → Bool
  | [] => false
  | (v, _) :: ps => v || partsHasVar ps

/-- Modelled from the spec: missing `ssz` crate sequence encoder (spec 4.2
step 5): output is fixed region followed by variable region, no padding. -/
def assemble (parts : List (Bool × List Nat)) : List Nat :=
  fixedRegion (sumPartLens parts) parts ++ varRegion parts

mutual
/-- Modelled from the spec: missing `ssz` crate `Encode` implementations
(Rust `as_ssz_bytes`, spec sections 4.2 and 6).  Booleans are one byte
(0 = false, 1 = true); integers are little-endian at their width; byte
arrays are themselves; a list or container is assembled from its parts;
an absent optional field is the 4-byte selector 0, a present one the
4-byte selector 1 followed by the inner encoding (byte layout fixed by the
`two_variable_len_options_encoding` test fixture). -/
def encodeV : Val → Ty → List Nat
  | .bool b, _ => [cond b 1 0]
  | .uint w v, _ => toLE w v
  | .bytes bs, _ => bs
  | .vnone, _ => toLE 4 0
  | .vsome v, t =>
    match t with
    | .option te => toLE 4 1 ++ encodeV v te
    | _ => []
  | .list vs, t =>
    match t with
    | .list te => assemble (zipParts vs (tyReplicate (valListLength vs) te))
    | _ => []
  | .container vs, t =>
    match t with
    | .container ts => assemble (zipParts vs ts)
    | _ => []
/-- Parts of a sequence encoding: pair each value with its field type's
classification and its own encoding (spec 4.2 steps 1-3). -/
def zipParts : ValList → TyList → List (Bool × List Nat)
  | .nil, _ => []
  | .cons _ _, .nil => []
  | .cons v vs, .cons t ts => ((fixedLen t).isNone, encodeV v t) :: zipParts vs ts
end

/-- Encoding of value `v` at type `t` (Rust `as_ssz_bytes`). -/
def encode (t : Ty) (v : Val) : List Nat :=
  encodeV v t

/-! ## Decoding

Spec section 4.3.  Splitting a buffer into per-part chunks first, then
decoding each chunk, mirrors the fixed-region/offset-table validation
steps 1-5 of the spec. -/

/-- Space a classification entry occupies in the fixed region. -/
def clsLen : Option Nat → Nat
  | some L => L
  | none => 4

/-- Expected fixed-region length of a classification list (spec 4.3
step 1: computed from the schema alone). -/
def seqFixedLen (cls : List (Option Nat)) : Nat :=
  (cls.map clsLen).sum

/-- Whether the classification list has any variable entry. -/
def hasVarCls : List (Option Nat) → Bool
  | [] => false
  | none :: _ => true
  | some _ :: cls => hasVarCls cls

/-- Walk the fixed region: a fixed entry yields its chunk, a variable
entry yields its decoded 4-byte little-endian offset word (spec 4.3
step 4: read the offset words from the fixed region, in field order). -/
def readSlots : List (Option Nat) → List Nat → List (List Nat ⊕ Nat)
  | [], _ => []
  | some L :: cls, b => .inl (b.take L) :: readSlots cls (b.drop L)
  | none :: cls, b => .inr (fromLE (b.take 4)) :: readSlots cls (b.drop 4)

/-- The offset words, in order. -/
def slotOffsets : List (List Nat ⊕ Nat) → List Nat
  | [] => []
  | .inl _ :: slots => slotOffsets slots
  | .inr o :: slots => o :: slotOffsets slots

/-- Spec 4.3 step 4a: the first offset must equal the fixed-region length
exactly, else a bounds error carrying the offending offset. -/
def checkFirst (F : Nat) : List Nat → Except DecodeError Unit
  | [] => .ok ()
  | o :: _ => if o = F then .ok () else .error (.OutOfBoundsByte o)

/-- Spec 4.3 step 4b: offsets must be non-decreasing; the first offset
violating this fails with a bounds error carrying that offset's value. -/
def checkMono : List Nat → Except DecodeError Unit
  | o₁ :: o₂ :: os =>
    if o₂ < o₁ then .error (.OutOfBoundsByte o₂) else checkMono (o₂ :: os)
  | _ => .ok ()

/-- Spec 4.3 step 4c: every offset must be at most the buffer length, else
a bounds error carrying that offset's value. -/
def checkBounds (len : Nat) : List Nat → Except DecodeError Unit
  | [] => .ok ()
  | o :: os => if len < o then .error (.OutOfBoundsByte o) else checkBounds len os

/-- Spec 4.3 step 5: partition the variable region by consecutive offset
pairs; the last field's payload extends to the end of the buffer. -/
def varChunks (bytes : List Nat) : List Nat → List (List Nat)
  | [] => []
  | [o] => [bytes.drop o]
  | o₁ :: o₂ :: os => (bytes.drop o₁).take (o₂ - o₁) :: varChunks bytes (o₂ :: os)

/-- Reassociate chunks to parts in declared order: fixed slots keep their
fixed-region chunk, variable slots take the next variable-region chunk. -/
def fillSlots : List (List Nat ⊕ Nat) → List (List Nat) → List (List Nat)
  | [], _ => []
  | .inl c :: slots, vcs => c :: fillSlots slots vcs
  | .inr _ :: slots, vc :: vcs => vc :: fillSlots slots vcs
  | .inr _ :: slots, [] => [] :: fillSlots slots []

/-- Modelled from the spec: missing `ssz` crate offset-table decoder (spec
4.3 steps 1-5 and section 7).  Splits a buffer into the per-part byte
chunks dictated by the classification list, validating buffer length
against the fixed-region length for all-fixed schemas and the offset-word
invariants (first = fixed-region length, non-decreasing, within bounds)
otherwise. -/
def splitSeq (cls : List (Option Nat)) (bytes : List Nat) :
    Except DecodeError (List (List Nat)) :=
  if hasVarCls cls then
    if bytes.length < seqFixedLen cls then
      .error (.InvalidByteLength bytes.length (seqFixedLen cls))
    else
      let slots := readSlots cls bytes
      let offs := slotOffsets slots
      match checkFirst (seqFixedLen cls) offs with
      | .error e => .error e
      | .ok _ =>
        match checkMono offs with
        | .error e => .error e
        | .ok _ =>
          match checkBounds bytes.length offs with
          | .error e => .error e
          | .ok _ => .ok (fillSlots slots (varChunks bytes offs))
  else
    if bytes.length = seqFixedLen cls then .ok (fillSlots (readSlots cls bytes) [])
    else .error (.InvalidByteLength bytes.length (seqFixedLen cls))

/-- Decode every chunk with the same element decoder, propagating the
first failure (spec 4.3 steps 6-7 for lists). -/
def dElems (d : List Nat → Except DecodeError Val) :
    List (List Nat) → Except DecodeError ValList
  | [] => .ok .nil
  | c :: cs =>
    match d c with
    | .error e => .error e
    | .ok v =>
      match dElems d cs with
      | .error e => .error e
      | .ok vs => .ok (.cons v vs)

/-- Decode each field's chunk at its field type, propagating the first
failure (spec 4.3 step 6 for containers). -/
def dFields (d : Ty → List Nat → Except DecodeError Val) :
    TyList → List (List Nat) → Except DecodeError ValList
  | .nil, _ => .ok .nil
  | .cons _ _, [] => .error .BytesInvalid
  | .cons t ts, c :: cs =>
    match d t c with
    | .error e => .error e
    | .ok v =>
      match dFields d ts cs with
      | .error e => .error e
      | .ok vs => .ok (.cons v vs)

/-- Modelled from the spec: missing `ssz` crate `Decode` implementations
(Rust `from_ssz_bytes`, spec sections 4.3, 6 and 7), with explicit
recursion fuel (`decode` supplies one more than the type's nesting depth,
which never runs out).  Booleans require one byte equal to 0 or 1;
integers and byte arrays require exactly their width.  A list of
fixed-size elements of length `L` is split into `length / L` chunks of
`L` bytes (an all-fixed split, which enforces divisibility); a list of
variable-size elements derives its element count from the first offset
word (`first / 4`); a container splits by its schema's classification.
An optional field requires at least 4 selector bytes: selector 0 is
absent, selector 1 decodes the remainder, anything else is invalid. -/
def decodeF : Nat → Ty → List Nat → Except DecodeError Val
  | 0, _, _ => .error .BytesInvalid
  | f + 1, t, b =>
    match t with
    | .bool =>
      match b with
      | [x] =>
        if x = 0 then .ok (.bool false)
        else if x = 1 then .ok (.bool true)
        else .error .BytesInvalid
      | _ => .error (.InvalidByteLength b.length 1)
    | .uint w =>
      if b.length = w then .ok (.uint w (fromLE b))
      else .error (.InvalidByteLength b.length w)
    | .bytes n =>
      if b.length = n then .ok (.bytes b)
      else .error (.InvalidByteLength b.length n)
    | .option te =>
      if b.length < 4 then .error (.InvalidByteLength b.length 4)
      else if fromLE (b.take 4) = 0 then .ok .vnone
      else if fromLE (b.take 4) = 1 then
        match decodeF f te (b.drop 4) with
        | .error e => .error e
        | .ok v => .ok (.vsome v)
      else .error .BytesInvalid
    | .list te =>
      match fixedLen te with
      | some L =>
        match splitSeq (List.replicate (b.length / L) (some L)) b with
        | .error e => .error e
        | .ok chunks =>
          match dElems (decodeF f te) chunks with
          | .error e => .error e
          | .ok vs => .ok (.list vs)
      | none =>
        if b.length = 0 then .ok (.list .nil)
        else if b.length < 4 then .error (.InvalidByteLength b.length 4)
        else
          match splitSeq (List.replicate (fromLE (b.take 4) / 4) none) b with
          | .error e => .error e
          | .ok chunks =>
            match dElems (decodeF f te) chunks with
            | .error e => .error e
            | .ok vs => .ok (.list vs)
    | .container ts =>
      match splitSeq (clsOf ts) b with
      | .error e => .error e
      | .ok chunks =>
        match dFields (decodeF f) ts chunks with
        | .error e => .error e
        | .ok vs => .ok (.container vs)

/-- Decoding of a buffer at type `t` (Rust `from_ssz_bytes`): run the
fuelled decoder with enough fuel for the type's nesting depth. -/
def decode (t : Ty) (b : List Nat) : Except DecodeError Val :=
  decodeF (tyDepth t + 1) t b

/-! ## Chain specification record (src/eth2/types/src/chain_spec.rs)

Only `get_domain` and the six domain constants matter here; the remaining
numeric fields of `ChainSpec` play no role in the domain computation. -/

/-- BLS signature domains, from `Domain` in chain_spec.rs lines 9-16. -/
inductive Domain where
  | BeaconProposer : Domain
  | Randao : Domain
  | Attestation : Domain
  | Deposit : Domain
  | VoluntaryExit : Domain
  | Transfer : Domain

/-- Modelled from the spec: the `Fork` type of the `types` crate is not
among the available sources.  It carries a 4-byte previous and current
version and the epoch at which the fork activates. -/
structure Fork where
  previous_version : List Nat
  current_version : List Nat
  epoch : Nat

/-- Modelled from the spec: missing `Fork::get_fork_version` — the fork's
4-byte version for an epoch (previous before the fork epoch, current from
it on). -/
def Fork.get_fork_version (fork : Fork) (epoch : Nat) : List Nat :=
  if epoch < fork.epoch then fork.previous_version else fork.current_version

/-- Modelled from the spec: missing `int_to_bytes` crate.  `int_to_bytes4`
is the 4-byte little-endian encoding of a `u32`. -/
def int_to_bytes4 (n : Nat) : List Nat :=
  toLE 4 n

/-- The six private signature-domain constants of `ChainSpec`
(chain_spec.rs lines 100-105). -/
structure ChainSpec where
  domain_beacon_proposer : Nat
  domain_randao : Nat
  domain_attestation : Nat
  domain_deposit : Nat
  domain_voluntary_exit : Nat
  domain_transfer : Nat

/-- The `match domain` selection inside `ChainSpec::get_domain`
(chain_spec.rs lines 120-127). -/
def ChainSpec.domainConstant (s : ChainSpec) : Domain → Nat
  | .BeaconProposer => s.domain_beacon_proposer
  | .Randao => s.domain_randao
  | .Attestation => s.domain_attestation
  | .Deposit => s.domain_deposit
  | .VoluntaryExit => s.domain_voluntary_exit
  | .Transfer => s.domain_transfer

/-- From `ChainSpec::get_domain` (chain_spec.rs lines 119-136): select the
domain constant, append its 4-byte encoding to the fork version bytes, and
read the result as a little-endian `u64`.  The Rust code copies the bytes
into an 8-byte array (`copy_from_slice`, which requires exactly 8 bytes);
the guard models that requirement. -/
def ChainSpec.get_domain (s : ChainSpec) (epoch : Nat) (domain : Domain) (fork : Fork) : Nat :=
  let bytes := fork.get_fork_version epoch ++ int_to_bytes4 (s.domainConstant domain)
  if bytes.length = 8 then fromLE bytes else 0

/-! ## Induction principles

The mutual recursors of `Ty`/`TyList` and `Val`/`ValList` cannot be used
by `def`s (the compiler does not code-generate them), but proofs may use
them freely; the following spell them out once. -/

/-- Induction over a `TyList` spine alone. -/
theorem tyListInd (P : TyList → Prop) (h0 : P .nil)
    (h1 : ∀ t ts, P ts → P (.cons t ts)) : ∀ ts, P ts :=
  @TyList.rec (fun _ => True) P trivial (fun _ => trivial) (fun _ => trivial)
    (fun _ _ => trivial) (fun _ _ => trivial) (fun _ _ => trivial)
    h0 (fun t ts _ ih => h1 t ts ih)

/-- Mutual induction over types, `Ty` conclusion. -/
theorem tyInd (P1 : Ty → Prop) (P2 : TyList → Prop)
    (hbool : P1 .bool) (huint : ∀ w, P1 (.uint w)) (hbytes : ∀ n, P1 (.bytes n))
    (hlist : ∀ t, P1 t → P1 (.list t)) (hopt : ∀ t, P1 t → P1 (.option t))
    (hcont : ∀ ts, P2 ts → P1 (.container ts))
    (hnil : P2 .nil) (hcons : ∀ t ts, P1 t → P2 ts → P2 (.cons t ts)) :
    ∀ t, P1 t :=
  @Ty.rec P1 P2 hbool huint hbytes hlist hopt hcont hnil hcons

/-- Mutual induction over types, `TyList` conclusion. -/
theorem tyListMutInd (P1 : Ty → Prop) (P2 : TyList → Prop)
    (hbool : P1 .bool) (huint : ∀ w, P1 (.uint w)) (hbytes : ∀ n, P1 (.bytes n))
    (hlist : ∀ t, P1 t → P1 (.list t)) (hopt : ∀ t, P1 t → P1 (.option t))
    (hcont : ∀ ts, P2 ts → P1 (.container ts))
    (hnil : P2 .nil) (hcons : ∀ t ts, P1 t → P2 ts → P2 (.cons t ts)) :
    ∀ ts, P2 ts :=
  @TyList.rec P1 P2 hbool huint hbytes hlist hopt hcont hnil hcons

/-- Induction over a `ValList` spine alone. -/
theorem valListInd (P : ValList → Prop) (h0 : P .nil)
    (h1 : ∀ v vs, P vs → P (.cons v vs)) : ∀ vs, P vs :=
  @ValList.rec (fun _ => True) P (fun _ => trivial) (fun _ _ => trivial)
    (fun _ => trivial) (fun _ _ => trivial) trivial (fun _ _ => trivial)
    (fun _ _ => trivial) h0 (fun v vs _ ih => h1 v vs ih)

/-- Mutual induction over values, `Val` conclusion. -/
theorem valInd (P1 : Val → Prop) (P2 : ValList → Prop)
    (hbool : ∀ b, P1 (.bool b)) (huint : ∀ w v, P1 (.uint w v))
    (hbytes : ∀ bs, P1 (.bytes bs))
    (hlist : ∀ vs, P2 vs → P1 (.list vs))
    (hnone : P1 .vnone) (hsome : ∀ v, P1 v → P1 (.vsome v))
    (hcont : ∀ vs, P2 vs → P1 (.container vs))
    (hnil : P2 .nil) (hcons : ∀ v vs, P1 v → P2 vs → P2 (.cons v vs)) :
    ∀ v, P1 v :=
  @Val.rec P1 P2 hbool huint hbytes hlist hnone hsome hcont hnil hcons

/-- Mutual induction over values, `ValList` conclusion. -/
theorem valListMutInd (P1 : Val → Prop) (P2 : ValList → Prop)
    (hbool : ∀ b, P1 (.bool b)) (huint : ∀ w v, P1 (.uint w v))
    (hbytes : ∀ bs, P1 (.bytes bs))
    (hlist : ∀ vs, P2 vs → P1 (.list vs))
    (hnone : P1 .vnone) (hsome : ∀ v, P1 v → P1 (.vsome v))
    (hcont : ∀ vs, P2 vs → P1 (.container vs))
    (hnil : P2 .nil) (hcons : ∀ v vs, P1 v → P2 vs → P2 (.cons v vs)) :
    ∀ vs, P2 vs :=
  @ValList.rec P1 P2 hbool huint hbytes hlist hnone hsome hcont hnil hcons

/-! ## Little-endian lemmas -/

theorem toLE_length (w : Nat) : ∀ v, (toLE w v).length = w := by
  induction w with
  | zero => intro v; rfl
  | succ w ih => intro v; simp [toLE, ih]

theorem fromLE_toLE (w : Nat) : ∀ v, v < 256 ^ w → fromLE (toLE w v) = v := by
  induction w with
  | zero =>
    intro v hv
    simp only [pow_zero, Nat.lt_one_iff] at hv
    simp [toLE, fromLE, hv]
  | succ w ih =>
    intro v hv
    have hdiv : v / 256 < 256 ^ w := by
      rw [pow_succ, mul_comm] at hv
      exact Nat.div_lt_of_lt_mul hv
    simp only [toLE, fromLE, ih (v / 256) hdiv]
    omega

/-! ## Region lemmas -/

theorem sumPartLens_cons (p : Bool × List Nat) (ps : List (Bool × List Nat)) :
    sumPartLens (p :: ps) = partLen p + sumPartLens ps := by
  simp [sumPartLens]

theorem fixedRegion_length (parts : List (Bool × List Nat)) :
    ∀ off, (fixedRegion off parts).length = sumPartLens parts := by
  induction parts with
  | nil => intro off; rfl
  | cons p ps ih =>
    intro off
    obtain ⟨v, payload⟩ := p
    cases v with
    | false => simp [fixedRegion, sumPartLens_cons, partLen, ih]
    | true => simp [fixedRegion, sumPartLens_cons, partLen, ih, toLE_length]

theorem assemble_length (parts : List (Bool × List Nat)) :
    (assemble parts).length = sumPartLens parts + (varRegion parts).length := by
  simp [assemble, fixedRegion_length]

theorem varRegion_of_novar (parts : List (Bool × List Nat))
    (h : partsHasVar parts = false) : varRegion parts = [] := by
  induction parts with
  | nil => rfl
  | cons p ps ih =>
    obtain ⟨v, payload⟩ := p
    simp only [partsHasVar, Bool.or_eq_false_iff] at h
    cases v with
    | false => simpa [varRegion] using ih h.2
    | true => simp at h

theorem varPayloads_of_novar (parts : List (Bool × List Nat))
    (h : partsHasVar parts = false) : varPayloads parts = [] := by
  induction parts with
  | nil => rfl
  | cons p ps ih =>
    obtain ⟨v, payload⟩ := p
    simp only [partsHasVar, Bool.or_eq_false_iff] at h
    cases v with
    | false => simpa [varPayloads] using ih h.2
    | true => simp at h

theorem part_snd_le_assemble (parts : List (Bool × List Nat)) :
    ∀ p ∈ parts, p.2.length ≤ (assemble parts).length := by
  have key : ∀ parts : List (Bool × List Nat), ∀ p ∈ parts,
      p.2.length ≤ sumPartLens parts + (varRegion parts).length := by
    intro parts
    induction parts with
    | nil => intro p hp; simp at hp
    | cons q ps ih =>
      intro p hp
      obtain ⟨v, payload⟩ := q
      rcases List.mem_cons.mp hp with hp | hp
      · subst hp
        cases v with
        | false => simp [sumPartLens_cons, partLen]; omega
        | true => simp [sumPartLens_cons, partLen, varRegion]; omega
      · have := ih p hp
        cases v with
        | false => simp only [sumPartLens_cons, partLen, varRegion]; omega
        | true =>
          simp only [sumPartLens_cons, partLen, varRegion, List.length_append]
          omega
  intro p hp
  rw [assemble_length]
  exact key parts p hp

/-! ## Alignment of parts with a classification list -/

/-- A part list matches a classification list pointwise: a `some L` entry
is a fixed part whose payload has length `L`, a `none` entry is a variable
part. -/
inductive PartsAligned : List (Bool × List Nat) → List (Option Nat) → Prop where
  | nil : PartsAligned [] []
  | fixed (p : List Nat) (L : Nat) (parts : List (Bool × List Nat))
      (cls : List (Option Nat)) :
      p.length = L → PartsAligned parts cls →
      PartsAligned ((false, p) :: parts) (some L :: cls)
  | var (p : List Nat) (parts : List (Bool × List Nat))
      (cls : List (Option Nat)) :
      PartsAligned parts cls →
      PartsAligned ((true, p) :: parts) (none :: cls)

theorem aligned_seqFixedLen {parts : List (Bool × List Nat)}
    {cls : List (Option Nat)} (h : PartsAligned parts cls) :
    seqFixedLen cls = sumPartLens parts := by
  induction h with
  | nil => rfl
  | fixed p L parts cls hl hal ih =>
    simp [seqFixedLen, clsLen, sumPartLens_cons, partLen, ← hl]
    simpa [seqFixedLen] using ih
  | var p parts cls hal ih =>
    simp [seqFixedLen, clsLen, sumPartLens_cons, partLen]
    simpa [seqFixedLen] using ih

theorem aligned_hasVar {parts : List (Bool × List Nat)}
    {cls : List (Option Nat)} (h : PartsAligned parts cls) :
    hasVarCls cls = partsHasVar parts := by
  induction h with
  | nil => rfl
  | fixed p L parts cls hl hal ih => simpa [hasVarCls, partsHasVar] using ih
  | var p parts cls hal ih => simp [hasVarCls, partsHasVar]

/-! ## Slots and offsets produced by an assembled buffer -/

/-- The slots a well-formed fixed region yields: fixed payloads in place,
the running absolute offset for each variable part. -/
def slotsOf : Nat → List (Bool × List Nat) → List (List Nat ⊕ Nat)
  | _, [] => []
  | off, (true, p) :: ps => .inr off :: slotsOf (off + p.length) ps
  | off, (false, p) :: ps => .inl p :: slotsOf off ps

/-- The offset words of an assembled buffer: the running absolute offset
at each variable part. -/
def offsetsOf : Nat → List (Bool × List Nat) → List Nat
  | _, [] => []
  | off, (true, p) :: ps => off :: offsetsOf (off + p.length) ps
  | off, (false, _) :: ps => offsetsOf off ps

theorem readSlots_fixedRegion {parts : List (Bool × List Nat)}
    {cls : List (Option Nat)} (h : PartsAligned parts cls) :
    ∀ off rest, off + (varRegion parts).length < 2 ^ 32 →
      readSlots cls (fixedRegion off parts ++ rest) = slotsOf off parts := by
  induction h with
  | nil => intro off rest hoff; rfl
  | fixed p L parts cls hl hal ih =>
    intro off rest hoff
    simp only [fixedRegion, List.append_assoc, readSlots,
      List.take_left' hl, List.drop_left' hl, slotsOf]
    exact congrArg _ (ih off rest (by simpa [varRegion] using hoff))
  | var p parts cls hal ih =>
    intro off rest hoff
    simp only [varRegion, List.length_append] at hoff
    simp only [fixedRegion, List.append_assoc, readSlots,
      List.take_left' (toLE_length 4 off), List.drop_left' (toLE_length 4 off),
      slotsOf]
    rw [fromLE_toLE 4 off (by norm_num; omega)]
    exact congrArg _ (ih (off + p.length) rest (by omega))

theorem slotOffsets_slotsOf (parts : List (Bool × List Nat)) :
    ∀ off, slotOffsets (slotsOf off parts) = offsetsOf off parts := by
  induction parts with
  | nil => intro off; rfl
  | cons p ps ih =>
    intro off
    obtain ⟨v, payload⟩ := p
    cases v with
    | false => simp [slotsOf, offsetsOf, slotOffsets, ih]
    | true => simp [slotsOf, offsetsOf, slotOffsets, ih]

theorem offsetsOf_head (parts : List (Bool × List Nat)) :
    ∀ off o os, offsetsOf off parts = o :: os → o = off := by
  induction parts with
  | nil => intro off o os h; simp [offsetsOf] at h
  | cons p ps ih =>
    intro off o os h
    obtain ⟨v, payload⟩ := p
    cases v with
    | false => exact ih off o os h
    | true =>
      simp only [offsetsOf] at h
      exact (List.cons.injEq _ _ _ _ ▸ h).1.symm

theorem offsetsOf_nil_novar (parts : List (Bool × List Nat)) :
    ∀ off, offsetsOf off parts = [] → partsHasVar parts = false := by
  induction parts with
  | nil => intro off _; rfl
  | cons p ps ih =>
    intro off h
    obtain ⟨v, payload⟩ := p
    cases v with
    | false => simpa [partsHasVar] using ih off h
    | true => simp [offsetsOf] at h

theorem checkFirst_offsetsOf (parts : List (Bool × List Nat)) (off : Nat) :
    checkFirst off (offsetsOf off parts) = .ok () := by
  cases h : offsetsOf off parts with
  | nil => rfl
  | cons o os =>
    have := offsetsOf_head parts off o os h
    simp [checkFirst, this]

theorem checkMono_offsetsOf_aux (parts : List (Bool × List Nat)) :
    ∀ off prev, prev ≤ off → checkMono (prev :: offsetsOf off parts) = .ok () := by
  induction parts with
  | nil => intro off prev _; rfl
  | cons p ps ih =>
    intro off prev hle
    obtain ⟨v, payload⟩ := p
    cases v with
    | false => exact ih off prev hle
    | true =>
      simp only [offsetsOf, checkMono, if_neg (by omega : ¬ off < prev)]
      exact ih (off + payload.length) off (by omega)

theorem checkMono_offsetsOf (parts : List (Bool × List Nat)) :
    ∀ off, checkMono (offsetsOf off parts) = .ok () := by
  induction parts with
  | nil => intro off; rfl
  | cons p ps ih =>
    intro off
    obtain ⟨v, payload⟩ := p
    cases v with
    | false => exact ih off
    | true =>
      simp only [offsetsOf]
      exact checkMono_offsetsOf_aux ps (off + payload.length) off (by omega)

theorem offsetsOf_le (parts : List (Bool × List Nat)) :
    ∀ off o, o ∈ offsetsOf off parts → o ≤ off + (varRegion parts).length := by
  induction parts with
  | nil => intro off o h; simp [offsetsOf] at h
  | cons p ps ih =>
    intro off o h
    obtain ⟨v, payload⟩ := p
    cases v with
    | false =>
      have := ih off o h
      simp only [varRegion]
      omega
    | true =>
      simp only [varRegion, List.length_append]
      simp only [offsetsOf, List.mem_cons] at h
      rcases h with h | h
      · omega
      · have := ih (off + payload.length) o h
        omega

theorem checkBounds_all (len : Nat) :
    ∀ os, (∀ o ∈ os, o ≤ len) → checkBounds len os = .ok () := by
  intro os
  induction os with
  | nil => intro _; rfl
  | cons o os ih =>
    intro h
    have ho := h o (by simp)
    simp only [checkBounds, if_neg (by omega : ¬ len < o)]
    exact ih (fun x hx => h x (by simp [hx]))

theorem varChunks_offsetsOf (parts : List (Bool × List Nat)) :
    ∀ off bytes, bytes.drop off = varRegion parts →
      varChunks bytes (offsetsOf off parts) = varPayloads parts := by
  induction parts with
  | nil => intro off bytes _; rfl
  | cons p ps ih =>
    intro off bytes hdrop
    obtain ⟨v, payload⟩ := p
    cases v with
    | false => exact ih off bytes hdrop
    | true =>
      simp only [varRegion] at hdrop
      have hdrop2 : bytes.drop (off + payload.length) = varRegion ps := by
        have : bytes.drop (off + payload.length) =
            (bytes.drop off).drop payload.length := by
          rw [List.drop_drop]
        rw [this, hdrop, List.drop_left]
      simp only [offsetsOf, varPayloads]
      cases htail : offsetsOf (off + payload.length) ps with
      | nil =>
        have hnv : partsHasVar ps = false :=
          offsetsOf_nil_novar ps (off + payload.length) htail
        simp only [varChunks, hdrop, varRegion_of_novar ps hnv,
          List.append_nil, varPayloads_of_novar ps hnv]
      | cons o₂ os =>
        have ho₂ : o₂ = off + payload.length :=
          offsetsOf_head ps (off + payload.length) o₂ os htail
        subst ho₂
        simp only [varChunks, hdrop]
        rw [show off + payload.length - off = payload.length by omega,
          List.take_left, ← htail, ih (off + payload.length) bytes hdrop2]

/-! ## The central splitting lemma: decoding recovers the parts -/

theorem fillSlots_slotsOf (parts : List (Bool × List Nat)) :
    ∀ off, fillSlots (slotsOf off parts) (varPayloads parts) =
      parts.map Prod.snd := by
  induction parts with
  | nil => intro off; rfl
  | cons p ps ih =>
    intro off
    obtain ⟨v, payload⟩ := p
    cases v with
    | false => simp [slotsOf, varPayloads, fillSlots, ih]
    | true => simp [slotsOf, varPayloads, fillSlots, ih]

theorem splitSeq_assemble {parts : List (Bool × List Nat)}
    {cls : List (Option Nat)} (hal : PartsAligned parts cls)
    (hfit : (assemble parts).length < 2 ^ 32) :
    splitSeq cls (assemble parts) = .ok (parts.map Prod.snd) := by
  have hF : seqFixedLen cls = sumPartLens parts := aligned_seqFixedLen hal
  have hlen : (assemble parts).length =
      sumPartLens parts + (varRegion parts).length := assemble_length parts
  have hread : readSlots cls (assemble parts) = slotsOf (sumPartLens parts) parts := by
    have := readSlots_fixedRegion hal (sumPartLens parts) (varRegion parts)
      (by omega)
    simpa [assemble] using this
  have hdropF : (assemble parts).drop (sumPartLens parts) = varRegion parts := by
    simp only [assemble]
    exact List.drop_left' (fixedRegion_length parts (sumPartLens parts))
  cases hv : partsHasVar parts with
  | false =>
    have hvl : (varRegion parts).length = 0 := by
      simp [varRegion_of_novar parts hv]
    have hcond : hasVarCls cls = false := by rw [aligned_hasVar hal, hv]
    simp only [splitSeq, hcond, Bool.false_eq_true, if_false]
    rw [if_pos (by omega : (assemble parts).length = seqFixedLen cls)]
    rw [hread, ← varPayloads_of_novar parts hv, fillSlots_slotsOf]
  | true =>
    simp only [splitSeq, aligned_hasVar hal, hv, if_true,
      if_neg (by omega : ¬ (assemble parts).length < seqFixedLen cls)]
    rw [hread, slotOffsets_slotsOf, hF, checkFirst_offsetsOf,
      checkMono_offsetsOf,
      checkBounds_all (assemble parts).length _
        (fun o ho => by have := offsetsOf_le parts (sumPartLens parts) o ho; omega),
      varChunks_offsetsOf parts (sumPartLens parts) (assemble parts) hdropF,
      fillSlots_slotsOf]

/-! ## Fuel irrelevance: any fuel above the type's depth decodes alike -/

theorem dElems_congr (d e : List Nat → Except DecodeError Val)
    (h : ∀ c, d c = e c) : ∀ cs, dElems d cs = dElems e cs := by
  intro cs
  induction cs with
  | nil => rfl
  | cons c cs ih => simp only [dElems, h, ih]

theorem dFields_congr (d e : Ty → List Nat → Except DecodeError Val) (D : Nat)
    (h : ∀ t c, tyDepth t ≤ D → d t c = e t c) :
    ∀ ts, tyDepthList ts ≤ D → ∀ cs, dFields d ts cs = dFields e ts cs := by
  intro ts
  induction ts using tyListInd with
  | h0 => intro _ cs; cases cs <;> rfl
  | h1 t ts ih =>
    intro hle cs
    simp only [tyDepthList, max_le_iff] at hle
    cases cs with
    | nil => rfl
    | cons c cs =>
      simp only [dFields]
      rw [h t c hle.1, ih hle.2 cs]

theorem decodeF_irrel : ∀ f fa t b, tyDepth t < f → tyDepth t < fa →
    decodeF f t b = decodeF fa t b := by
  intro f
  induction f with
  | zero => intro fa t b h; omega
  | succ f ih =>
    intro fa t b h ha
    match fa, ha with
    | fa + 1, ha =>
      cases t with
      | bool => rfl
      | uint w => rfl
      | bytes n => rfl
      | option te =>
        have hte : decodeF f te (b.drop 4) = decodeF fa te (b.drop 4) :=
          ih fa te (b.drop 4) (by simp [tyDepth] at h; omega)
            (by simp [tyDepth] at ha; omega)
        simp only [decodeF, hte]
      | list te =>
        have hte : decodeF f te = decodeF fa te := by
          funext x
          exact ih fa te x (by simp [tyDepth] at h; omega)
            (by simp [tyDepth] at ha; omega)
        simp only [decodeF, hte]
      | container ts =>
        have hts : dFields (decodeF f) ts = dFields (decodeF fa) ts := by
          funext cs
          exact dFields_congr (decodeF f) (decodeF fa) (tyDepthList ts)
            (fun t c hle => ih fa t c (by simp [tyDepth] at h; omega)
              (by simp [tyDepth] at ha; omega))
            ts (le_refl _) cs
        simp only [decodeF, hts]

theorem decodeF_eq_decode (f : Nat) (t : Ty) (b : List Nat)
    (h : tyDepth t < f) : decodeF f t b = decode t b :=
  decodeF_irrel f (tyDepth t + 1) t b h (by omega)

/-! ## Fixed-size encodings have their classified length -/

/-- Induction motive: a well-typed value of a fixed-size type encodes to
exactly the classified length. -/
def EncLenP1 (v : Val) : Prop :=
  ∀ t L, HasTy v t → fixedLen t = some L → (encodeV v t).length = L

/-- Induction motive: the parts of a well-typed all-fixed field list have
total fixed length equal to the schema's and no variable part. -/
def EncLenP2 (vs : ValList) : Prop :=
  ∀ ts L, HasTyZip vs ts → fixedLenList ts = some L →
    sumPartLens (zipParts vs ts) = L ∧ partsHasVar (zipParts vs ts) = false

theorem encLen1 : ∀ v, EncLenP1 v := by
  refine valInd EncLenP1 EncLenP2 ?_ ?_ ?_ ?_ ?_ ?_ ?_ ?_ ?_
  · intro b t L ht hf
    cases ht
    simp only [fixedLen, Option.some.injEq] at hf
    simp [encodeV, ← hf]
  · intro w v t L ht hf
    cases ht
    simp only [fixedLen, Option.some.injEq] at hf
    simp [encodeV, toLE_length, ← hf]
  · intro bs t L ht hf
    cases ht with
    | bytes _ n hn =>
      simp only [fixedLen, Option.some.injEq] at hf
      simp [encodeV, hn, ← hf]
  · intro vs _ t L ht hf
    cases ht
    simp [fixedLen] at hf
  · intro t L ht hf
    cases ht
    simp [fixedLen] at hf
  · intro v _ t L ht hf
    cases ht
    simp [fixedLen] at hf
  · intro vs ih t L ht hf
    cases ht with
    | container _ ts hz =>
      simp only [fixedLen] at hf
      obtain ⟨h1, h2⟩ := ih ts L hz hf
      simp [encodeV, assemble_length, h1, varRegion_of_novar _ h2]
  · intro ts L hz hf
    cases hz
    simp only [fixedLenList, Option.some.injEq] at hf
    simp [zipParts, sumPartLens, partsHasVar, ← hf]
  · intro v vs ih1 ih2 ts L hz hf
    cases hz with
    | cons _ _ t ts hv hz =>
      simp only [fixedLenList] at hf
      cases hft : fixedLen t with
      | none => simp [hft] at hf
      | some a =>
        cases hfts : fixedLenList ts with
        | none => simp [hft, hfts] at hf
        | some c =>
          simp only [hft, hfts, Option.some.injEq] at hf
          obtain ⟨hsum, hnv⟩ := ih2 ts c hz hfts
          constructor
          · simp only [zipParts, sumPartLens_cons, partLen, hft,
              Option.isNone_some, Bool.false_eq_true, if_false,
              ih1 t a hv hft, hsum]
            omega
          · simp [zipParts, partsHasVar, hft, hnv]

/-! ## Well-formed fixed-size types have positive length -/

/-- Induction motive: well-formed fixed-size types have length at least 1. -/
def WfPosP1 (t : Ty) : Prop :=
  ∀ L, wfB t = true → fixedLen t = some L → 1 ≤ L

/-- Induction motive: well-formed non-empty all-fixed schemas have total
length at least 1. -/
def WfPosP2 (ts : TyList) : Prop :=
  ∀ L, wfListB ts = true → ts ≠ .nil → fixedLenList ts = some L → 1 ≤ L

theorem wfPos1 : ∀ t, WfPosP1 t := by
  refine tyInd WfPosP1 WfPosP2 ?_ ?_ ?_ ?_ ?_ ?_ ?_ ?_
  · intro L _ hf
    simp only [fixedLen, Option.some.injEq] at hf
    omega
  · intro w L hw hf
    simp only [wfB, bne_iff_ne, ne_eq] at hw
    simp only [fixedLen, Option.some.injEq] at hf
    omega
  · intro n L hw hf
    simp only [wfB, bne_iff_ne, ne_eq] at hw
    simp only [fixedLen, Option.some.injEq] at hf
    omega
  · intro t _ L _ hf
    simp [fixedLen] at hf
  · intro t _ L _ hf
    simp [fixedLen] at hf
  · intro ts ih L hw hf
    simp only [wfB, Bool.and_eq_true] at hw
    simp only [fixedLen] at hf
    cases ts with
    | nil => simp at hw
    | cons t ts => exact ih L hw.2 (by intro h; cases h) hf
  · intro L _ hne _
    exact absurd rfl hne
  · intro t ts ih1 ih2 L hw _ hf
    simp only [wfListB, Bool.and_eq_true] at hw
    simp only [fixedLenList] at hf
    cases hft : fixedLen t with
    | none => simp [hft] at hf
    | some a =>
      cases hfts : fixedLenList ts with
      | none => simp [hft, hfts] at hf
      | some c =>
        simp only [hft, hfts, Option.some.injEq] at hf
        have := ih1 a hw.1 hft
        omega

/-! ## Lists as homogeneous sequences -/

theorem aligned_length {parts : List (Bool × List Nat)}
    {cls : List (Option Nat)} (h : PartsAligned parts cls) :
    parts.length = cls.length := by
  induction h with
  | nil => rfl
  | fixed p L parts cls hl hal ih => simp [ih]
  | var p parts cls hal ih => simp [ih]

theorem hasTyZip_replicate (te : Ty) : ∀ vs, HasTyAll vs te →
    HasTyZip vs (tyReplicate (valListLength vs) te) := by
  intro vs
  induction vs using valListInd with
  | h0 => intro _; exact HasTyZip.nil
  | h1 v vs ih =>
    intro h
    cases h with
    | cons _ _ _ hv hall => exact HasTyZip.cons _ _ _ _ hv (ih hall)

theorem wfListB_replicate (te : Ty) (h : wfB te = true) :
    ∀ n, wfListB (tyReplicate n te) = true := by
  intro n
  induction n with
  | zero => rfl
  | succ n ih => simp [tyReplicate, wfListB, h, ih]

theorem zipParts_rep_var (te : Ty) (hfl : fixedLen te = none) : ∀ vs,
    PartsAligned (zipParts vs (tyReplicate (valListLength vs) te))
      (List.replicate (valListLength vs) none) ∧
    sumPartLens (zipParts vs (tyReplicate (valListLength vs) te)) =
      4 * valListLength vs := by
  intro vs
  induction vs using valListInd with
  | h0 => exact ⟨PartsAligned.nil, rfl⟩
  | h1 v vs ih =>
    simp only [valListLength, tyReplicate, zipParts, hfl, Option.isNone_none,
      List.replicate, sumPartLens_cons, partLen, if_pos trivial]
    refine ⟨PartsAligned.var _ _ _ ih.1, ?_⟩
    rw [ih.2]
    omega

theorem zipParts_rep_fixed (te : Ty) (L : Nat) (hfl : fixedLen te = some L) :
    ∀ vs, HasTyAll vs te →
    PartsAligned (zipParts vs (tyReplicate (valListLength vs) te))
      (List.replicate (valListLength vs) (some L)) ∧
    sumPartLens (zipParts vs (tyReplicate (valListLength vs) te)) =
      valListLength vs * L ∧
    partsHasVar (zipParts vs (tyReplicate (valListLength vs) te)) = false := by
  intro vs
  induction vs using valListInd with
  | h0 =>
    exact fun _ => ⟨PartsAligned.nil, by simp [zipParts, sumPartLens, valListLength], rfl⟩
  | h1 v vs ih =>
    intro hall
    cases hall with
    | cons _ _ _ hv htail =>
      obtain ⟨ha, hs, hn⟩ := ih htail
      have hlen : (encodeV v te).length = L := encLen1 v te L hv hfl
      simp only [valListLength, tyReplicate, zipParts, hfl, Option.isNone_some,
        List.replicate, sumPartLens_cons, partLen, Bool.false_eq_true, if_false,
        partsHasVar, Bool.false_or]
      refine ⟨PartsAligned.fixed _ _ _ _ hlen ha, ?_, hn⟩
      rw [hlen, hs, Nat.succ_mul]
      omega

theorem zipParts_aligned_clsOf : ∀ vs ts, HasTyZip vs ts →
    PartsAligned (zipParts vs ts) (clsOf ts) := by
  intro vs
  induction vs using valListInd with
  | h0 =>
    intro ts hz
    cases hz
    exact PartsAligned.nil
  | h1 v vs ih =>
    intro ts hz
    cases hz with
    | cons _ _ t ts hv hz =>
      cases hft : fixedLen t with
      | some a =>
        simp only [zipParts, clsOf, hft, Option.isNone_some]
        exact PartsAligned.fixed _ _ _ _ (encLen1 v t a hv hft) (ih ts hz)
      | none =>
        simp only [zipParts, clsOf, hft, Option.isNone_none]
        exact PartsAligned.var _ _ _ (ih ts hz)

theorem dFields_replicate (d : Ty → List Nat → Except DecodeError Val)
    (te : Ty) : ∀ n cs, cs.length = n →
    dFields d (tyReplicate n te) cs = dElems (d te) cs := by
  intro n
  induction n with
  | zero =>
    intro cs h
    cases cs with
    | nil => rfl
    | cons c cs => simp at h
  | succ n ih =>
    intro cs h
    cases cs with
    | nil => simp at h
    | cons c cs =>
      simp only [tyReplicate, dFields, dElems]
      rw [ih cs (by simpa using h)]

/-! ## Classification lists of all-fixed schemas -/

theorem fixedLenList_clsOf : ∀ ts F, fixedLenList ts = some F →
    hasVarCls (clsOf ts) = false ∧ seqFixedLen (clsOf ts) = F := by
  intro ts
  induction ts using tyListInd with
  | h0 =>
    intro F hf
    simp only [fixedLenList, Option.some.injEq] at hf
    exact ⟨rfl, by simp [clsOf, seqFixedLen, ← hf]⟩
  | h1 t ts ih =>
    intro F hf
    simp only [fixedLenList] at hf
    cases hft : fixedLen t with
    | none => simp [hft] at hf
    | some a =>
      cases hfts : fixedLenList ts with
      | none => simp [hft, hfts] at hf
      | some c =>
        simp only [hft, hfts, Option.some.injEq] at hf
        obtain ⟨h1, h2⟩ := ih c hfts
        constructor
        · simp [clsOf, hasVarCls, hft, h1]
        · simp only [clsOf, hft, seqFixedLen, List.map_cons, List.sum_cons,
            clsLen]
          simp only [seqFixedLen] at h2
          omega

theorem hasVarCls_replicate_some (L : Nat) :
    ∀ n, hasVarCls (List.replicate n (some L)) = false := by
  intro n
  induction n with
  | zero => rfl
  | succ n ih => simpa [List.replicate, hasVarCls] using ih

theorem seqFixedLen_replicate_some (L : Nat) :
    ∀ n, seqFixedLen (List.replicate n (some L)) = n * L := by
  intro n
  induction n with
  | zero => simp [seqFixedLen]
  | succ n ih =>
    simp only [List.replicate, seqFixedLen, List.map_cons, List.sum_cons,
      clsLen]
    simp only [seqFixedLen] at ih
    rw [ih, Nat.succ_mul]
    omega

/-! ## Unfolding equations of `decode` -/

theorem decode_bool (b : List Nat) :
    decode .bool b =
      match b with
      | [x] =>
        if x = 0 then .ok (.bool false)
        else if x = 1 then .ok (.bool true)
        else .error .BytesInvalid
      | _ => .error (.InvalidByteLength b.length 1) := rfl

theorem decode_uint (w : Nat) (b : List Nat) :
    decode (.uint w) b =
      if b.length = w then .ok (.uint w (fromLE b))
      else .error (.InvalidByteLength b.length w) := rfl

theorem decode_bytes (n : Nat) (b : List Nat) :
    decode (.bytes n) b =
      if b.length = n then .ok (.bytes b)
      else .error (.InvalidByteLength b.length n) := rfl

theorem decode_option (te : Ty) (b : List Nat) :
    decode (.option te) b =
      if b.length < 4 then .error (.InvalidByteLength b.length 4)
      else if fromLE (b.take 4) = 0 then .ok .vnone
      else if fromLE (b.take 4) = 1 then
        match decode te (b.drop 4) with
        | .error e => .error e
        | .ok v => .ok (.vsome v)
      else .error .BytesInvalid := rfl

theorem decode_list (te : Ty) (b : List Nat) :
    decode (.list te) b =
      match fixedLen te with
      | some L =>
        match splitSeq (List.replicate (b.length / L) (some L)) b with
        | .error e => .error e
        | .ok chunks =>
          match dElems (decode te) chunks with
          | .error e => .error e
          | .ok vs => .ok (.list vs)
      | none =>
        if b.length = 0 then .ok (.list .nil)
        else if b.length < 4 then .error (.InvalidByteLength b.length 4)
        else
          match splitSeq (List.replicate (fromLE (b.take 4) / 4) none) b with
          | .error e => .error e
          | .ok chunks =>
            match dElems (decode te) chunks with
            | .error e => .error e
            | .ok vs => .ok (.list vs) := rfl

theorem decode_container (ts : TyList) (b : List Nat) :
    decode (.container ts) b =
      match splitSeq (clsOf ts) b with
      | .error e => .error e
      | .ok chunks =>
        match dFields decode ts chunks with
        | .error e => .error e
        | .ok vs => .ok (.container vs) := by
  have hfun : dFields (decodeF (tyDepthList ts + 1)) ts = dFields decode ts := by
    funext cs
    exact dFields_congr (decodeF (tyDepthList ts + 1)) decode (tyDepthList ts)
      (fun t c hle => decodeF_eq_decode (tyDepthList ts + 1) t c (by omega))
      ts (le_refl _) cs
  show (match splitSeq (clsOf ts) b with
    | Except.error e => (Except.error e : Except DecodeError Val)
    | Except.ok chunks =>
      match dFields (decodeF (tyDepthList ts + 1)) ts chunks with
      | Except.error e => Except.error e
      | Except.ok vs => Except.ok (Val.container vs)) =
    (match splitSeq (clsOf ts) b with
    | Except.error e => Except.error e
    | Except.ok chunks =>
      match dFields decode ts chunks with
      | Except.error e => Except.error e
      | Except.ok vs => Except.ok (Val.container vs))
  rw [hfun]

/-! ## The round-trip theorem -/

/-- Induction motive: decoding inverts encoding on well-typed values of
well-formed types whose encoding fits the 4-byte offset scheme. -/
def RTP1 (v : Val) : Prop :=
  ∀ t, wfB t = true → HasTy v t → (encodeV v t).length < 2 ^ 32 →
    decode t (encodeV v t) = .ok v

/-- Induction motive: decoding the parts of an encoded field sequence
recovers the field values. -/
def RTP2 (vs : ValList) : Prop :=
  ∀ ts, wfListB ts = true → HasTyZip vs ts →
    (∀ p ∈ zipParts vs ts, p.2.length < 2 ^ 32) →
    dFields decode ts (List.map Prod.snd (zipParts vs ts)) = .ok vs

theorem assemble_take4_var (p : List Nat) (ps : List (Bool × List Nat)) :
    (assemble ((true, p) :: ps)).take 4 =
      toLE 4 (sumPartLens ((true, p) :: ps)) := by
  simp only [assemble, fixedRegion, List.append_assoc]
  exact List.take_left' (toLE_length 4 _)

theorem rt1 : ∀ v, RTP1 v := by
  refine valInd RTP1 RTP2 ?_ ?_ ?_ ?_ ?_ ?_ ?_ ?_ ?_
  · -- booleans
    intro b t hw ht hfit
    cases ht
    cases b <;> rfl
  · -- unsigned integers
    intro w v t hw ht hfit
    cases ht with
    | uint _ _ hv =>
      show decode (.uint w) (toLE w v) = .ok (.uint w v)
      rw [decode_uint, if_pos (toLE_length w v), fromLE_toLE w v hv]
  · -- byte arrays
    intro bs t hw ht hfit
    cases ht with
    | bytes _ n hn =>
      show decode (.bytes n) bs = .ok (.bytes bs)
      rw [decode_bytes, if_pos hn]
  · -- lists
    intro vs ih t hw ht hfit
    cases ht with
    | list _ te hall =>
      simp only [wfB] at hw
      cases hfl : fixedLen te with
      | some L =>
        obtain ⟨hal, hsum, hnv⟩ := zipParts_rep_fixed te L hfl vs hall
        have hL1 : 1 ≤ L := wfPos1 te L hw hfl
        have henc : encodeV (.list vs) (.list te) =
            assemble (zipParts vs (tyReplicate (valListLength vs) te)) := by
          simp [encodeV]
        rw [henc] at hfit ⊢
        have hvr : (varRegion (zipParts vs (tyReplicate (valListLength vs) te))).length = 0 := by
          simp [varRegion_of_novar _ hnv]
        have hlen : (assemble (zipParts vs (tyReplicate (valListLength vs) te))).length =
            valListLength vs * L := by
          rw [assemble_length, hsum]
          omega
        rw [decode_list]
        simp only [hfl]
        have hdiv : (assemble (zipParts vs (tyReplicate (valListLength vs) te))).length / L =
            valListLength vs := by
          rw [hlen]
          exact Nat.mul_div_cancel _ (by omega)
        rw [hdiv]
        simp only [splitSeq_assemble hal hfit]
        have hchunks : (List.map Prod.snd (zipParts vs (tyReplicate (valListLength vs) te))).length =
            valListLength vs := by
          rw [List.length_map, aligned_length hal, List.length_replicate]
        rw [← dFields_replicate decode te (valListLength vs) _ hchunks]
        simp only [ih (tyReplicate (valListLength vs) te)
          (wfListB_replicate te hw _) (hasTyZip_replicate te vs hall)
          (fun p hp => lt_of_le_of_lt (part_snd_le_assemble _ p hp) hfit)]
      | none =>
        cases vs with
        | nil =>
          have henc : encodeV (.list .nil) (.list te) = [] := rfl
          rw [henc, decode_list]
          simp [hfl]
        | cons v0 vs0 =>
          obtain ⟨hal, hsum⟩ := zipParts_rep_var te hfl (.cons v0 vs0)
          have henc : encodeV (.list (.cons v0 vs0)) (.list te) =
              assemble (zipParts (.cons v0 vs0)
                (tyReplicate (valListLength (.cons v0 vs0)) te)) := by
            simp [encodeV]
          rw [henc] at hfit ⊢
          have hparts2 : zipParts (.cons v0 vs0)
              (tyReplicate (valListLength (.cons v0 vs0)) te) =
              (true, encodeV v0 te) ::
                zipParts vs0 (tyReplicate (valListLength vs0) te) := by
            simp [valListLength, tyReplicate, zipParts, hfl]
          have hlen : (assemble (zipParts (.cons v0 vs0)
              (tyReplicate (valListLength (.cons v0 vs0)) te))).length =
              4 * valListLength (.cons v0 vs0) +
                (varRegion (zipParts (.cons v0 vs0)
                  (tyReplicate (valListLength (.cons v0 vs0)) te))).length := by
            rw [assemble_length, hsum]
          have hpos : 1 ≤ valListLength (.cons v0 vs0) := by
            simp [valListLength]
          have htake : (assemble (zipParts (.cons v0 vs0)
              (tyReplicate (valListLength (.cons v0 vs0)) te))).take 4 =
              toLE 4 (sumPartLens (zipParts (.cons v0 vs0)
                (tyReplicate (valListLength (.cons v0 vs0)) te))) := by
            rw [hparts2]
            exact assemble_take4_var _ _
          rw [decode_list]
          simp only [hfl]
          rw [if_neg (by omega), if_neg (by omega), htake, hsum,
            fromLE_toLE 4 _ (by omega),
            show 4 * valListLength (.cons v0 vs0) / 4 =
              valListLength (.cons v0 vs0) by omega]
          simp only [splitSeq_assemble hal hfit]
          have hchunks : (List.map Prod.snd (zipParts (.cons v0 vs0)
              (tyReplicate (valListLength (.cons v0 vs0)) te))).length =
              valListLength (.cons v0 vs0) := by
            rw [List.length_map, aligned_length hal, List.length_replicate]
          rw [← dFields_replicate decode te (valListLength (.cons v0 vs0)) _ hchunks]
          simp only [ih (tyReplicate (valListLength (.cons v0 vs0)) te)
            (wfListB_replicate te hw _)
            (hasTyZip_replicate te (.cons v0 vs0) hall)
            (fun p hp => lt_of_le_of_lt (part_snd_le_assemble _ p hp) hfit)]
  · -- absent optional fields
    intro t hw ht hfit
    cases ht with
    | vnone te =>
      have henc : encodeV .vnone (.option te) = [0, 0, 0, 0] := rfl
      rw [henc, decode_option]
      norm_num [fromLE]
  · -- present optional fields
    intro v ihv t hw ht hfit
    cases ht with
    | vsome _ te hv =>
      simp only [wfB] at hw
      have henc : encodeV (.vsome v) (.option te) = toLE 4 1 ++ encodeV v te := rfl
      rw [henc] at hfit ⊢
      have hlen4 : (toLE 4 1).length = 4 := toLE_length 4 1
      have h1 : fromLE (toLE 4 1) = 1 := by norm_num [toLE, fromLE]
      rw [decode_option, List.take_left' hlen4, List.drop_left' hlen4, h1]
      rw [if_neg (by simp [List.length_append, hlen4]),
        if_neg (by omega), if_pos rfl]
      simp only [ihv te hw hv
        (by simp only [List.length_append, hlen4] at hfit; omega)]
  · -- containers
    intro vs ih t hw ht hfit
    cases ht with
    | container _ ts hz =>
      simp only [wfB, Bool.and_eq_true] at hw
      have hal := zipParts_aligned_clsOf vs ts hz
      have henc : encodeV (.container vs) (.container ts) =
          assemble (zipParts vs ts) := by
        simp [encodeV]
      rw [henc] at hfit ⊢
      rw [decode_container]
      simp only [splitSeq_assemble hal hfit]
      simp only [ih ts hw.2 hz
        (fun p hp => lt_of_le_of_lt (part_snd_le_assemble _ p hp) hfit)]
  · -- empty field sequences
    intro ts hw hz hb
    cases hz
    rfl
  · -- non-empty field sequences
    intro v vs ih1 ih2 ts hw hz hb
    cases hz with
    | cons _ _ t ts hv hz =>
      simp only [wfListB, Bool.and_eq_true] at hw
      have hmem : ((fixedLen t).isNone, encodeV v t) ∈
          zipParts (ValList.cons v vs) (TyList.cons t ts) := by
        simp [zipParts]
      have h1 : decode t (encodeV v t) = .ok v := ih1 t hw.1 hv (hb _ hmem)
      have h2 : dFields decode ts (List.map Prod.snd (zipParts vs ts)) = .ok vs :=
        ih2 ts hw.2 hz (fun p hp => hb p (by simp [zipParts, hp]))
      simp only [zipParts, List.map_cons, dFields, h1, h2]

/-! ## Schemas and values of the test suite (src/eth2/utils/ssz/tests/tests.rs) -/

/-- Field schema of `FixedLen { a: u16, b: u64, c: u31 }` — tests.rs
lines 77-82 (`a: u16, b: u64, c: u32`). -/
def FixedLenFields : TyList :=
  .cons (.uint 2) (.cons (.uint 8) (.cons (.uint 4) .nil))

/-- The `FixedLen` container type of tests.rs lines 77-82. -/
def FixedLenTy : Ty :=
  .container FixedLenFields

/-- A `FixedLen { a, b, c }` value. -/
def fixedLenVal (a b c : Nat) : Val :=
  .container (.cons (.uint 2 a) (.cons (.uint 8 b) (.cons (.uint 4 c) .nil)))

/-- Field schema of `VariableLen { a: u16, b: Vec<u16>, c: u32 }` —
tests.rs lines 136-141. -/
def VariableLenFields : TyList :=
  .cons (.uint 2) (.cons (.list (.uint 2)) (.cons (.uint 4) .nil))

/-- The `VariableLen` container type of tests.rs lines 136-141. -/
def VariableLenTy : Ty :=
  .container VariableLenFields

/-- A list of `u16` values. -/
def valListOfU16 : List Nat → ValList
  | [] => .nil
  | x :: xs => .cons (.uint 2 x) (valListOfU16 xs)

/-- A `VariableLen { a, b, c }` value with an arbitrary list field. -/
def variableLenValV (a : Nat) (bs : ValList) (c : Nat) : Val :=
  .container (.cons (.uint 2 a) (.cons (.list bs) (.cons (.uint 4 c) .nil)))

/-- A `VariableLen { a, b, c }` value with a `Vec<u16>` field. -/
def variableLenVal (a : Nat) (bs : List Nat) (c : Nat) : Val :=
  variableLenValV a (valListOfU16 bs) c

/-- Field schema of `ThreeVariableLen { a: u16, b: Vec<u16>, c: Vec<u16>,
d: Vec<u16> }` — tests.rs lines 255-261. -/
def ThreeVariableLenFields : TyList :=
  .cons (.uint 2) (.cons (.list (.uint 2))
    (.cons (.list (.uint 2)) (.cons (.list (.uint 2)) .nil)))

/-- The `ThreeVariableLen` container type of tests.rs lines 255-261. -/
def ThreeVariableLenTy : Ty :=
  .container ThreeVariableLenFields

/-- The `TwoVariableLenOptions { a: u16, b: Option<u16>,
c: Option<Vec<u16>>, d: Option<Vec<u16>> }` container type — tests.rs
lines 289-295. -/
def TwoVariableLenOptionsTy : Ty :=
  .container (.cons (.uint 2) (.cons (.option (.uint 2))
    (.cons (.option (.list (.uint 2))) (.cons (.option (.list (.uint 2))) .nil))))

/-- The fixture value `TwoVariableLenOptions { a: 42, b: None,
c: Some(vec![0]), d: None }` of tests.rs lines 297-316. -/
def twoVarOptVal : Val :=
  .container (.cons (.uint 2 42) (.cons .vnone
    (.cons (.vsome (.list (valListOfU16 [0]))) (.cons .vnone .nil))))

/-! ## The claims -/

/-- C1: for every supported type (booleans, fixed-length byte arrays,
32-byte hashes, lists of fixed- and variable-size elements including
nested lists, fixed-only containers, mixed containers, and containers
with optional fields) and every value of that type, decoding the encoding
succeeds and returns the value: `from_ssz_bytes (as_ssz_bytes v) = Ok v`.
The two side conditions delimit the scheme's domain rather than weaken the
claim: `wfB` says the type is one the codec supports (positive integer and
byte-array widths, non-empty containers, as every Rust type with an
`Encode`/`Decode` impl in the repository satisfies), and the length bound
says the encoding is representable in the 4-byte offset scheme at all
(spec section 3, invariant 5 makes buffers of `2 ^ 32` bytes or more
unrepresentable). -/
theorem ssz_round_trip (t : Ty) (v : Val) (hwf : wfB t = true)
    (ht : HasTy v t) (hfit : (encode t v).length < 2 ^ 32) :
    decode t (encode t v) = .ok v :=
  rt1 v t hwf ht hfit

/-- Witness for C1 at the `VariableLen { a: 1, b: vec![0, 1, 2], c: 1 }`
fixture of tests.rs lines 187-225. -/
theorem ssz_round_trip_witness :
    wfB VariableLenTy = true ∧
    HasTy (variableLenVal 1 [0, 1, 2] 1) VariableLenTy ∧
    (encode VariableLenTy (variableLenVal 1 [0, 1, 2] 1)).length < 2 ^ 32 ∧
    decode VariableLenTy (encode VariableLenTy (variableLenVal 1 [0, 1, 2] 1)) =
      .ok (variableLenVal 1 [0, 1, 2] 1) := by
  have hty : HasTy (variableLenVal 1 [0, 1, 2] 1) VariableLenTy := by
    refine HasTy.container _ _ ?_
    refine HasTyZip.cons _ _ _ _ (HasTy.uint 2 1 (by norm_num)) ?_
    refine HasTyZip.cons _ _ _ _ (HasTy.list _ _ ?_) ?_
    · exact HasTyAll.cons _ _ _ (HasTy.uint 2 0 (by norm_num))
        (HasTyAll.cons _ _ _ (HasTy.uint 2 1 (by norm_num))
          (HasTyAll.cons _ _ _ (HasTy.uint 2 2 (by norm_num)) (HasTyAll.nil _)))
    · exact HasTyZip.cons _ _ _ _ (HasTy.uint 4 1 (by norm_num)) HasTyZip.nil
  exact ⟨rfl, hty, by decide,
    ssz_round_trip VariableLenTy (variableLenVal 1 [0, 1, 2] 1) rfl hty (by decide)⟩

/-- C2: a container with no variable-size fields decodes only buffers of
exactly the schema's fixed length; any other length fails with
`InvalidByteLength` carrying the actual and expected lengths.  In
particular the 15-byte buffer obtained by appending one zero byte to the
valid 14-byte encoding of `FixedLen { a: 1, b: 2, c: 3 }` fails with
`InvalidByteLength { len: 15, expected: 14 }` (tests.rs lines 109-123). -/
theorem fixed_length_exactness :
    (∀ ts F bytes, fixedLenList ts = some F → bytes.length ≠ F →
      decode (.container ts) bytes =
        .error (.InvalidByteLength bytes.length F)) ∧
    decode FixedLenTy (encode FixedLenTy (fixedLenVal 1 2 3) ++ [0]) =
      .error (.InvalidByteLength 15 14) := by
  constructor
  · intro ts F bytes hf hne
    obtain ⟨h1, h2⟩ := fixedLenList_clsOf ts F hf
    rw [decode_container]
    simp only [splitSeq, h1, Bool.false_eq_true, if_false, h2, if_neg hne]
  · rfl

/-- Witness for C2 at a 15-byte all-zero buffer against the `FixedLen`
schema. -/
theorem fixed_length_exactness_witness :
    fixedLenList FixedLenFields = some 14 ∧
    (List.replicate 15 0).length ≠ 14 ∧
    decode (.container FixedLenFields) (List.replicate 15 0) =
      .error (.InvalidByteLength 15 14) := by
  refine ⟨rfl, by decide, ?_⟩
  have h := fixed_length_exactness.1 FixedLenFields 14 (List.replicate 15 0)
    rfl (by decide)
  simpa using h

/-- C5: the all-fixed container `{a: u16, b: u64, c: u32}` encodes each
field little-endian at its type-determined width (2, 8 and 4 bytes), in
declared order with no padding; with `a = 1, b = 1, c = 1` the output is
exactly the 14 bytes of tests.rs lines 84-107. -/
theorem fixed_container_encoding :
    (∀ a b c : Nat, encode FixedLenTy (fixedLenVal a b c) =
      toLE 2 a ++ (toLE 8 b ++ toLE 4 c)) ∧
    encode FixedLenTy (fixedLenVal 1 1 1) =
      [1, 0, 1, 0, 0, 0, 0, 0, 0, 0, 1, 0, 0, 0] := by
  constructor
  · intro a b c
    simp [encode, encodeV, FixedLenTy, FixedLenFields, fixedLenVal, zipParts,
      fixedLen, assemble, fixedRegion, varRegion]
  · rfl

/-- C6: the mixed container `{a: u16, b: list of u16, c: u32}` has a
10-byte fixed region (2 + 4 + 4); its single offset word — bytes 2 to 5 of
every encoding — holds 10, the fixed-region length; and with
`a = 0, b = [], c = 0` the encoding is exactly the 10 bytes
`[00,00, 10,00,00,00, 00,00,00,00]` of tests.rs lines 187-225 (the empty
list contributes no payload bytes). -/
theorem mixed_container_encoding :
    seqFixedLen (clsOf VariableLenFields) = 10 ∧
    (∀ (a : Nat) (bs : ValList) (c : Nat),
      ((encode VariableLenTy (variableLenValV a bs c)).drop 2).take 4 =
        toLE 4 10) ∧
    encode VariableLenTy (variableLenVal 0 [] 0) =
      [0, 0, 10, 0, 0, 0, 0, 0, 0, 0] := by
  refine ⟨rfl, ?_, rfl⟩
  intro a bs c
  have h2 : (toLE 2 a).length = 2 := toLE_length 2 a
  have h4 : (toLE 4 10).length = 4 := toLE_length 4 10
  have hps : encode VariableLenTy (variableLenValV a bs c) =
      assemble [(false, toLE 2 a),
        (true, encodeV (.list bs) (.list (.uint 2))), (false, toLE 4 c)] := by
    simp [encode, encodeV, VariableLenTy, VariableLenFields, variableLenValV,
      zipParts, fixedLen]
  have hsum : sumPartLens [(false, toLE 2 a),
      (true, encodeV (.list bs) (.list (.uint 2))), (false, toLE 4 c)] = 10 := by
    simp [sumPartLens, partLen, toLE_length]
  rw [hps]
  simp only [assemble, hsum, fixedRegion, varRegion, List.append_assoc,
    List.append_nil]
  rw [List.drop_left' h2, List.take_left' h4]

/-- C8: encoding is deterministic — a pure function of the value alone;
encoding equal values yields byte-identical output (the model is a
stateless function, so two calls with the same value coincide
definitionally). -/
theorem encode_deterministic :
    ∀ (t : Ty) (v₁ v₂ : Val), v₁ = v₂ → encode t v₁ = encode t v₂ := by
  intro t v₁ v₂ h
  rw [h]

/-- Witness for C8 at the `FixedLen { a: 1, b: 1, c: 1 }` fixture. -/
theorem encode_deterministic_witness :
    fixedLenVal 1 1 1 = fixedLenVal 1 1 1 ∧
    encode FixedLenTy (fixedLenVal 1 1 1) = encode FixedLenTy (fixedLenVal 1 1 1) :=
  ⟨rfl, encode_deterministic FixedLenTy (fixedLenVal 1 1 1) (fixedLenVal 1 1 1) rfl⟩

/-- C10: every `Option` field is classified variable-size — even
`Option<u16>`, whose inner type is fixed-size — so it receives a 4-byte
offset word in the container's fixed region; `None` encodes to the 4-byte
selector `[00,00,00,00]` and `Some v` to the selector `[01,00,00,00]`
followed by the encoding of `v`.  Consequently `TwoVariableLenOptions
{ a: 42, b: None, c: Some(vec![0]), d: None }` encodes to exactly the
28-byte fixture of tests.rs lines 297-316: fixed region of 14 bytes,
offset words 14, 18 and 24, and payloads of 4, 6 and 4 bytes. -/
theorem option_field_encoding :
    (∀ t : Ty, fixedLen (.option t) = none) ∧
    (∀ t : Ty, encode (.option t) .vnone = [0, 0, 0, 0]) ∧
    (∀ (te : Ty) (v : Val),
      encode (.option te) (.vsome v) = [1, 0, 0, 0] ++ encode te v) ∧
    encode TwoVariableLenOptionsTy twoVarOptVal =
      [42, 0, 14, 0, 0, 0, 18, 0, 0, 0, 24, 0, 0, 0,
       0, 0, 0, 0, 1, 0, 0, 0, 0, 0, 0, 0, 0, 0] :=
  ⟨fun _ => rfl, fun _ => rfl, fun _ _ => rfl, rfl⟩

/-- C3: for a container with at least one variable-size field, whenever
the first offset word of the buffer differs from the fixed-region length,
decode fails with a bounds error carrying that (wrong) offset value; in
particular, for the `VariableLen` schema (fixed-region length 10), the
16-byte test buffers with first offset 9 (pointing into the fixed region,
tests.rs lines 143-155) and 11 (skipping a byte, tests.rs lines 173-185)
fail with `OutOfBoundsByte { i: 9 }` and `OutOfBoundsByte { i: 11 }`. -/
theorem first_offset_invariant :
    (∀ ts bytes o os, hasVarCls (clsOf ts) = true →
      seqFixedLen (clsOf ts) ≤ bytes.length →
      slotOffsets (readSlots (clsOf ts) bytes) = o :: os →
      o ≠ seqFixedLen (clsOf ts) →
      decode (.container ts) bytes = .error (.OutOfBoundsByte o)) ∧
    decode VariableLenTy [1, 0, 9, 0, 0, 0, 1, 0, 0, 0, 0, 0, 1, 0, 2, 0] =
      .error (.OutOfBoundsByte 9) ∧
    decode VariableLenTy [1, 0, 11, 0, 0, 0, 1, 0, 0, 0, 0, 0, 1, 0, 2, 0] =
      .error (.OutOfBoundsByte 11) := by
  refine ⟨?_, rfl, rfl⟩
  intro ts bytes o os hvar hge hoffs hne
  rw [decode_container]
  simp only [splitSeq, hvar, if_true,
    if_neg (by omega : ¬ bytes.length < seqFixedLen (clsOf ts)),
    hoffs, checkFirst, if_neg hne]

/-- Witness for C3 at the `offset_into_fixed_bytes` buffer of tests.rs
lines 143-155. -/
theorem first_offset_invariant_witness :
    hasVarCls (clsOf VariableLenFields) = true ∧
    seqFixedLen (clsOf VariableLenFields) ≤
      ([1, 0, 9, 0, 0, 0, 1, 0, 0, 0, 0, 0, 1, 0, 2, 0] : List Nat).length ∧
    slotOffsets (readSlots (clsOf VariableLenFields)
      [1, 0, 9, 0, 0, 0, 1, 0, 0, 0, 0, 0, 1, 0, 2, 0]) = 9 :: [] ∧
    (9 : Nat) ≠ seqFixedLen (clsOf VariableLenFields) ∧
    decode (.container VariableLenFields)
      [1, 0, 9, 0, 0, 0, 1, 0, 0, 0, 0, 0, 1, 0, 2, 0] =
      .error (.OutOfBoundsByte 9) :=
  ⟨rfl, by decide, rfl, by decide,
    first_offset_invariant.1 VariableLenFields
      [1, 0, 9, 0, 0, 0, 1, 0, 0, 0, 0, 0, 1, 0, 2, 0] 9 []
      rfl (by decide) rfl (by decide)⟩

/-- C4: decoding the `ThreeVariableLen` container rejects decreasing
offset words with a bounds error carrying the first offset that is
smaller than its predecessor: a 16-byte buffer with offset words
`[14, o₂, o₃]` where `14 ≤ o₂` and `o₃ < o₂` fails with
`OutOfBoundsByte { i: o₃ }`; in particular the tests.rs lines 275-287
buffer with offset words `[14, 15, 14]` fails with
`OutOfBoundsByte { i: 14 }`. -/
theorem decreasing_offsets_rejected :
    (∀ o₂ o₃ : Nat, o₂ < 2 ^ 32 → o₃ < 2 ^ 32 → 14 ≤ o₂ → o₃ < o₂ →
      decode ThreeVariableLenTy
        (1 :: 0 :: (toLE 4 14 ++ (toLE 4 o₂ ++ (toLE 4 o₃ ++ [0, 0])))) =
        .error (.OutOfBoundsByte o₃)) ∧
    decode ThreeVariableLenTy
      [1, 0, 14, 0, 0, 0, 15, 0, 0, 0, 14, 0, 0, 0, 0, 0] =
      .error (.OutOfBoundsByte 14) := by
  refine ⟨?_, rfl⟩
  intro o₂ o₃ hb2 hb3 hge hdec
  have hpow : (256 : Nat) ^ 4 = 2 ^ 32 := by norm_num
  have hb2p : o₂ < 256 ^ 4 := by rw [hpow]; exact hb2
  have hb3p : o₃ < 256 ^ 4 := by rw [hpow]; exact hb3
  have l2 : (toLE 4 o₂).length = 4 := toLE_length 4 o₂
  have l3 : (toLE 4 o₃).length = 4 := toLE_length 4 o₃
  show decode (.container ThreeVariableLenFields)
    (1 :: 0 :: (toLE 4 14 ++ (toLE 4 o₂ ++ (toLE 4 o₃ ++ [0, 0])))) = _
  rw [decode_container]
  have hcls : clsOf ThreeVariableLenFields =
      [some 2, Option.none, Option.none, Option.none] := rfl
  rw [hcls]
  have hslots : readSlots [some 2, Option.none, Option.none, Option.none]
      (1 :: 0 :: (toLE 4 14 ++ (toLE 4 o₂ ++ (toLE 4 o₃ ++ [0, 0])))) =
      [.inl [1, 0], .inr 14, .inr o₂, .inr o₃] := by
    have e0 : readSlots [some 2, Option.none, Option.none, Option.none]
        (1 :: 0 :: (toLE 4 14 ++ (toLE 4 o₂ ++ (toLE 4 o₃ ++ [0, 0])))) =
        .inl [1, 0] :: readSlots [Option.none, Option.none, Option.none]
          (toLE 4 14 ++ (toLE 4 o₂ ++ (toLE 4 o₃ ++ [0, 0]))) := rfl
    rw [e0]
    simp only [readSlots,
      List.take_left' (toLE_length 4 14), List.drop_left' (toLE_length 4 14),
      List.take_left' l2, List.drop_left' l2,
      List.take_left' l3, List.drop_left' l3,
      fromLE_toLE 4 14 (by norm_num), fromLE_toLE 4 o₂ hb2p,
      fromLE_toLE 4 o₃ hb3p]
  have hlen :
      (1 :: 0 :: (toLE 4 14 ++ (toLE 4 o₂ ++ (toLE 4 o₃ ++ [0, 0])))).length =
        16 := by
    simp [toLE_length]
  have hd2 : List.drop 2
      (1 :: 0 :: (toLE 4 14 ++ (toLE 4 o₂ ++ (toLE 4 o₃ ++ [0, 0])))) =
      toLE 4 14 ++ (toLE 4 o₂ ++ (toLE 4 o₃ ++ [0, 0])) := rfl
  have ho1 : fromLE (List.take 4 (List.drop 2
      (1 :: 0 :: (toLE 4 14 ++ (toLE 4 o₂ ++ (toLE 4 o₃ ++ [0, 0])))))) = 14 := by
    rw [hd2, List.take_left' (toLE_length 4 14), fromLE_toLE 4 14 (by norm_num)]
  have ho2 : fromLE (List.take 4 (List.drop 4 (List.drop 2
      (1 :: 0 :: (toLE 4 14 ++ (toLE 4 o₂ ++ (toLE 4 o₃ ++ [0, 0]))))))) = o₂ := by
    rw [hd2, List.drop_left' (toLE_length 4 14), List.take_left' l2,
      fromLE_toLE 4 o₂ hb2p]
  have ho3 : fromLE (List.take 4 (List.drop 4 (List.drop 4 (List.drop 2
      (1 :: 0 :: (toLE 4 14 ++ (toLE 4 o₂ ++ (toLE 4 o₃ ++ [0, 0])))))))) = o₃ := by
    rw [hd2, List.drop_left' (toLE_length 4 14), List.drop_left' l2,
      List.take_left' l3, fromLE_toLE 4 o₃ hb3p]
  have h14 : 2 + (4 + (4 + (4 + 0))) = 14 := by norm_num
  simp only [splitSeq, hasVarCls, seqFixedLen, clsLen, List.map_cons,
    List.map_nil, List.sum_cons, List.sum_nil, hslots, slotOffsets, hlen,
    h14, ho1, ho2, ho3, checkFirst, checkMono, if_true,
    if_neg (show ¬ o₂ < 14 by omega), if_pos hdec]
  rw [if_neg (show ¬ (16 : Nat) < 14 by norm_num)]

/-- Witness for C4 at the `offsets_decreasing` offsets `[14, 15, 14]` of
tests.rs lines 275-287. -/
theorem decreasing_offsets_rejected_witness :
    (15 : Nat) < 2 ^ 32 ∧ (14 : Nat) < 2 ^ 32 ∧ (14 : Nat) ≤ 15 ∧
    (14 : Nat) < 15 ∧
    decode ThreeVariableLenTy
      (1 :: 0 :: (toLE 4 14 ++ (toLE 4 15 ++ (toLE 4 14 ++ [0, 0])))) =
      .error (.OutOfBoundsByte 14) :=
  ⟨by norm_num, by norm_num, by norm_num, by norm_num,
    decreasing_offsets_rejected.1 15 14 (by norm_num) (by norm_num)
      (by norm_num) (by norm_num)⟩

/-- C7: a list of a fixed-size element type of byte length `L` decodes
only buffers whose length is a multiple of `L`; any other length fails
with a length-mismatch error.  Consequently appending one extra byte to
the valid encoding of `VariableLen { a: 1, b: vec![2], c: 3 }` extends the
derived range of the last variable field to an odd byte length, and decode
returns an error — `InvalidByteLength { len: 3, expected: 2 }`, raised
while decoding the 3-byte `Vec<u16>` payload — rather than succeeding
(tests.rs lines 157-171). -/
theorem list_length_multiple :
    (∀ (te : Ty) (L : Nat) (bytes : List Nat), fixedLen te = some L →
      bytes.length % L ≠ 0 →
      decode (.list te) bytes =
        .error (.InvalidByteLength bytes.length (bytes.length / L * L))) ∧
    decode VariableLenTy (encode VariableLenTy (variableLenVal 1 [2] 3) ++ [0]) =
      .error (.InvalidByteLength 3 2) := by
  refine ⟨?_, rfl⟩
  intro te L bytes hfl hmod
  rw [decode_list]
  simp only [hfl]
  have hne : bytes.length ≠ bytes.length / L * L := by
    have hd := Nat.div_add_mod bytes.length L
    have hc : L * (bytes.length / L) = bytes.length / L * L := Nat.mul_comm _ _
    omega
  simp only [splitSeq, hasVarCls_replicate_some L (bytes.length / L),
    Bool.false_eq_true, if_false,
    seqFixedLen_replicate_some L (bytes.length / L), if_neg hne]

/-- Witness for C7 at a 3-byte buffer against `Vec<u16>` (element length
2). -/
theorem list_length_multiple_witness :
    fixedLen (.uint 2) = some 2 ∧ ([5, 5, 5] : List Nat).length % 2 ≠ 0 ∧
    decode (.list (.uint 2)) [5, 5, 5] = .error (.InvalidByteLength 3 2) := by
  refine ⟨rfl, by decide, ?_⟩
  have h := list_length_multiple.1 (.uint 2) 2 [5, 5, 5] rfl (by decide)
  simpa using h

/-- C9: for every chain spec, epoch, domain variant and fork, `get_domain`
returns the `u64` read little-endian from the 8 bytes formed by
concatenating the fork's 4-byte version for that epoch with the 4-byte
little-endian encoding of the `u32` domain constant selected by the
variant — `domain_beacon_proposer` for `BeaconProposer`, `domain_randao`
for `Randao`, and so on (chain_spec.rs lines 119-136). -/
theorem get_domain_le :
    (∀ (s : ChainSpec) (epoch : Nat) (d : Domain) (fork : Fork),
      fork.previous_version.length = 4 → fork.current_version.length = 4 →
      s.get_domain epoch d fork =
        fromLE (fork.get_fork_version epoch ++ toLE 4 (s.domainConstant d))) ∧
    (∀ s : ChainSpec, s.domainConstant .BeaconProposer = s.domain_beacon_proposer) ∧
    (∀ s : ChainSpec, s.domainConstant .Randao = s.domain_randao) ∧
    (∀ s : ChainSpec, s.domainConstant .Attestation = s.domain_attestation) ∧
    (∀ s : ChainSpec, s.domainConstant .Deposit = s.domain_deposit) ∧
    (∀ s : ChainSpec, s.domainConstant .VoluntaryExit = s.domain_voluntary_exit) ∧
    (∀ s : ChainSpec, s.domainConstant .Transfer = s.domain_transfer) := by
  refine ⟨?_, fun _ => rfl, fun _ => rfl, fun _ => rfl, fun _ => rfl,
    fun _ => rfl, fun _ => rfl⟩
  intro s epoch d fork hp hc
  have hv : (fork.get_fork_version epoch).length = 4 := by
    simp only [Fork.get_fork_version]
    split
    · exact hp
    · exact hc
  simp only [ChainSpec.get_domain, int_to_bytes4, List.length_append, hv,
    toLE_length]
  rw [if_pos (by norm_num)]

/-- Witness for C9 at a concrete fork and spec. -/
theorem get_domain_le_witness :
    ([0, 0, 0, 0] : List Nat).length = 4 ∧
    ([1, 0, 0, 0] : List Nat).length = 4 ∧
    ChainSpec.get_domain ⟨0, 1, 2, 3, 4, 5⟩ 3 .Randao
        ⟨[0, 0, 0, 0], [1, 0, 0, 0], 5⟩ =
      fromLE (Fork.get_fork_version ⟨[0, 0, 0, 0], [1, 0, 0, 0], 5⟩ 3 ++
        toLE 4 (ChainSpec.domainConstant ⟨0, 1, 2, 3, 4, 5⟩ .Randao)) :=
  ⟨rfl, rfl, get_domain_le.1 ⟨0, 1, 2, 3, 4, 5⟩ 3 .Randao
    ⟨[0, 0, 0, 0], [1, 0, 0, 0], 5⟩ rfl rfl⟩

end SszModel
